import Mathlib

/-!
Verification of the LocalFS library: the POSIX-style path algebra
(`toArray`, `normalize`, `resolve`, `toString`) and the stateful navigator
(`getDir`, `getFile`, `cd`, `copyDir`) that walks backend directory handles.

The path algebra is embedded directly from the source.  The navigator's
backend (the File System Access API) is abstract in the source — it is
modelled here by an abstract, possibly failing step function
`H → String → Bool → Option H` standing for
`dir.getDirectoryHandle(name, {create})`, and for `copyDir` by an explicit
finite tree of directories and files in which a handle is identified by its
path of names from the root (the identity test `isSameEntry` becomes path
equality).
-/

namespace LocalFS

/-! ## Path algebra (source: `src/path.ts`) -/

def ROOT_NAME : String := ""

def PATH_SEPERATOR : String := "/"

/-- Model of `path.split("/")` written out on the character list: the string is cut
at every occurrence of the (one-character) separator, keeping empty pieces,
so that splitting the empty string yields `[""]` and `"a//b"` yields
`["a", "", "b"]`, exactly as `String.prototype.split` does. -/
def splitSlash : List Char → List String
  | [] => [""]
  | c :: rest =>
    if c = '/' then "" :: splitSlash rest
    else
      match splitSlash rest with
      | [] => [String.mk [c]]
      | s :: ss => String.mk (c :: s.data) :: ss

/-- Model of `toArray(path)`: split a POSIX path string on `/`; a trailing empty
segment (from a trailing separator, or from splitting the empty string)
is popped. -/
def toArray (path : String) : List String :=
  let arr := splitSlash path.data
  if arr.getLast? = some "" then arr.dropLast else arr

/-- The body of `normalize`'s `for` loop, for iterations `i ≥ 1` (and for
`i = 0` when the first segment is not the root sentinel, in which case the
`i === 0 && p === ROOT_NAME` test fails and the general branches run).
`res` is the accumulator stack, `segCount` the number of real segments
pushed in this pass.  The source loop runs to `i ≤ path.length`; the final
iteration reads `undefined`, which is falsy, hence a guaranteed no-op, so
the recursion simply stops at the end of the list.  The `return []` of the
source (relative path escaping its start with upstream disallowed) is the
non-recursive `[]` result. -/
def normLoop (allowUpstream : Bool) (isAbsolute : Bool) :
    List String → List String → Nat → List String
  | [], res, _ => res
  | p :: rest, res, segCount =>
    if p = "" ∨ p = "." then normLoop allowUpstream isAbsolute rest res segCount
    else if p = ".." then
      if isAbsolute ∧ 1 < res.length then
        normLoop allowUpstream isAbsolute rest res.dropLast segCount
      else if ¬isAbsolute ∧ allowUpstream then
        if 0 < segCount then
          normLoop allowUpstream isAbsolute rest res.dropLast (segCount - 1)
        else
          normLoop allowUpstream isAbsolute rest (res ++ [".."]) segCount
      else if ¬isAbsolute ∧ 0 < res.length then
        normLoop allowUpstream isAbsolute rest res.dropLast segCount
      else if ¬isAbsolute then []
      else normLoop allowUpstream isAbsolute rest res segCount
    else normLoop allowUpstream isAbsolute rest (res ++ [p]) (segCount + 1)

/-- Model of `normalize(path, allowUpstream)`: the `i = 0` iteration's root-sentinel
test is unfolded; when it fires the pass is absolute and starts with the
sentinel already pushed, otherwise the whole list is processed by the
general loop body in relative mode. -/
def normalize (path : List String) (allowUpstream : Bool) : List String :=
  match path with
  | [] => []
  | p :: rest =>
    if p = ROOT_NAME then normLoop allowUpstream true rest [ROOT_NAME] 0
    else normLoop allowUpstream false (p :: rest) [] 0

/-- The `for` loop of `resolve`: fold the argument sequences from last to
first, skipping empty ones, prepending each to the accumulator, and
stopping as soon as the just-prepended sequence was absolute. The input
list here is the argument list already reversed. -/
def resolveLoop : List (List String) → List String → List String
  | [], acc => acc
  | path :: rest, acc =>
    if path.length = 0 then resolveLoop rest acc
    else
      if path.head? = some ROOT_NAME then path ++ acc
      else resolveLoop rest (path ++ acc)

/-- Model of `resolve(...args)`: fold right-to-left, then normalize with upstream
traversal permitted; an empty normalization result is replaced by
`["."]`. -/
def resolve (args : List (List String)) : List String :=
  let resolvedPath := normalize (resolveLoop args.reverse []) true
  if resolvedPath.length = 0 then ["."] else resolvedPath

/-- Model of `toString(path)`: the lone root sentinel renders as the separator,
anything else joins the segments with the separator. -/
def toString (path : List String) : String :=
  if path.head? = some ROOT_NAME ∧ path.length = 1 then PATH_SEPERATOR
  else String.intercalate PATH_SEPERATOR path

/-! ## Navigator path input (`string | string[]`) -/

/-- Every navigator method accepts a path as either a string or a
pre-split segment sequence. -/
inductive PathArg where
  | str (s : String)
  | arr (a : List String)

/-- Model of `Array.isArray(path) ? path : _path.toArray(path)`. -/
def PathArg.toSegs : PathArg → List String
  | .str s => toArray s
  | .arr a => a

/-- Model of `resolvePath(cd, path)` from `LocalFS.ts`. -/
def resolvePath (cd : List String) (path : PathArg) : List String :=
  resolve [cd, path.toSegs]

/-- The element-wise comparison loop of `isChildOrEqual` over the first
`cd.length` positions. -/
def prefixEq : List String → List String → Bool
  | [], _ => true
  | _ :: _, [] => false
  | c :: cs, q :: qs => c == q && prefixEq cs qs

/-- Model of `isChildOrEqual(cd, path)`: `path` is at least as long as `cd` and
agrees with it element-wise on the first `cd.length` positions. -/
def isChildOrEqual (cd path : List String) : Bool :=
  if path.length < cd.length then false else prefixEq cd path

/-! ## Navigator walks (source: `src/LocalFS.ts`)

The backend is abstract: `step dir name create` stands for the awaited
`dir.getDirectoryHandle(name, {create})`, returning `none` when the
backend rejects the request (NotFound, permission, ...), in which case the
exception propagates and aborts the enclosing operation. -/

/-- The body of the walk loop, iterating on the precomputed number of
remaining iterations so that the recursion is structural: run `rem` steps
`dir = await dir.getDirectoryHandle(absolutePath[i], ...)` starting at
index `i`.  A failing step aborts the loop. -/
def walkAux {H : Type} (step : H → String → Option H) (abs : List String) :
    Nat → Nat → H → Option H
  | 0, _, dir => some dir
  | rem + 1, i, dir =>
    match step dir (abs.getD i "") with
    | none => none
    | some d => walkAux step abs rem (i + 1) d

/-- The walk loop `for(let i = i0; i < stop; i++) dir = await
dir.getDirectoryHandle(absolutePath[i], ...)`; `getDir` runs it with
`stop = absolutePath.length`, `getFile` with `stop = absolutePath.length - 1`. -/
def walkLoopM {H : Type} (step : H → String → Option H) (abs : List String)
    (stop : Nat) (i : Nat) (dir : H) : Option H :=
  walkAux step abs (stop - i) i dir

/-- Model of `LocalFS.getDir(path, create)`: resolve against the current directory,
start from the cached current handle when the target is child-or-equal,
otherwise from the root handle at index 1, and walk the remaining
segments. -/
def getDir {H : Type} (step : H → String → Bool → Option H) (root current : H)
    (cd : List String) (path : PathArg) (create : Bool) : Option H :=
  let absolutePath := resolvePath cd path
  let isChild := isChildOrEqual cd absolutePath
  walkLoopM (fun d n => step d n create) absolutePath absolutePath.length
    (if isChild then cd.length else 1) (if isChild then current else root)

/-- Model of `LocalFS.getFile(path, create)`: the same walk but stopping at
`absolutePath.length - 1`, then `dir.getFileHandle(absolutePath.at(-1),
{create})` on the parent directory reached; `fileStep` stands for
`getFileHandle`. -/
def getFile {H F : Type} (step : H → String → Bool → Option H)
    (fileStep : H → String → Bool → Option F) (root current : H)
    (cd : List String) (path : PathArg) (create : Bool) : Option F :=
  let absolutePath := resolvePath cd path
  let isChild := isChildOrEqual cd absolutePath
  match walkLoopM (fun d n => step d n create) absolutePath (absolutePath.length - 1)
      (if isChild then cd.length else 1) (if isChild then current else root) with
  | none => none
  | some dir => fileStep dir (absolutePath.getLastD "") create

/-- The mutable fields of a `LocalFS` instance: the root handle and the
current-directory pair `{handle, path}`. -/
structure NavState (H : Type) where
  rootHandle : H
  currentHandle : H
  currentPath : List String

/-- Model of `new LocalFS(dirHandle)`. -/
def mkNav {H : Type} (dirHandle : H) : NavState H :=
  { rootHandle := dirHandle, currentHandle := dirHandle, currentPath := [ROOT_NAME] }

/-- Model of `this.getDir(path)` with the instance's own state (`create` defaults
to `false` and `cd` passes no second argument). -/
def getDirNav {H : Type} (step : H → String → Bool → Option H) (s : NavState H)
    (path : PathArg) (create : Bool) : Option H :=
  getDir step s.rootHandle s.currentHandle s.currentPath path create

/-- Model of `LocalFS.cd(path)`: `this.current.handle = await this.getDir(path);
this.current.path = resolvePath(this.current.path, path); return
this.current.handle`.  If `getDir` throws, the exception propagates before
either assignment runs, so the caller observes the unchanged state `s`
paired with no return value; on success the handle is assigned first and
the path is then resolved against `this.current.path`, which that first
assignment did not touch. -/
def cdNav {H : Type} (step : H → String → Bool → Option H) (s : NavState H)
    (path : PathArg) : NavState H × Option H :=
  match getDirNav step s path false with
  | none => (s, none)
  | some h =>
    let s1 : NavState H := { s with currentHandle := h }
    let s2 : NavState H := { s1 with currentPath := resolvePath s1.currentPath path }
    (s2, some s2.currentHandle)

/-! ## The filesystem tree model for `copyDir`

`copyDir` mutates the hierarchy while recursing over it, so the backend is
modelled concretely: a finite tree of directories and files, a handle being
the path of names from the tree root (so `isSameEntry` is path equality);
a directory's entry list is the snapshot taken when its iterator is
obtained, while every child handle is looked up in the current, possibly
already mutated tree.  The sibling promises that the source spawns are
sequentialised, which leaves the resulting tree unchanged because no two
siblings touch the same entry. -/

inductive FSNode where
  | file (content : String)
  | dir (entries : List (String × FSNode))

/-- Look an entry up by name in a directory's entry list. -/
def findEntry : List (String × FSNode) → String → Option FSNode
  | [], _ => none
  | (n, v) :: rest, name => if n = name then some v else findEntry rest name

/-- Follow a handle (a path of names) down the tree. -/
def lookup : FSNode → List String → Option FSNode
  | n, [] => some n
  | .file _, _ :: _ => none
  | .dir es, name :: rest =>
    match findEntry es name with
    | none => none
    | some c => lookup c rest

/-- Rewrite the node a handle points at, leaving the tree unchanged when
the handle dangles (runs into a file or a missing entry). -/
def modifyAt (f : FSNode → FSNode) : List String → FSNode → FSNode
  | [], n => f n
  | _ :: _, .file c => .file c
  | name :: rest, .dir es =>
    .dir (es.map fun e => if e.1 = name then (e.1, modifyAt f rest e.2) else e)

/-- Model of `parentHandle.getDirectoryHandle(name, {create: true})`: create the
child directory when absent.  (When the name is taken by a file the real
backend throws; the model leaves the tree unchanged — that branch is not
reached under this development's preconditions.) -/
def ensureDir (fs : FSNode) (parent : List String) (name : String) : FSNode :=
  modifyAt (fun n =>
    match n with
    | .dir es =>
      match findEntry es name with
      | some _ => .dir es
      | none => .dir (es ++ [(name, .dir [])])
    | other => other) parent fs

/-- Model of `copyFileHelper` into `parent.getFileHandle(name, {create: true})`:
create or overwrite the file with the streamed content. -/
def putFile (fs : FSNode) (parent : List String) (name : String)
    (content : String) : FSNode :=
  modifyAt (fun n =>
    match n with
    | .dir es =>
      match findEntry es name with
      | some _ => .dir (es.map fun e => if e.1 = name then (e.1, .file content) else e)
      | none => .dir (es ++ [(name, .file content)])
    | other => other) parent fs

/-- The entry loop of `copyDirHelper`: a child directory identity-equal to
the original destination (`handle.isSameEntry(originalTo)`) is skipped;
any other child directory is created at the destination and recursed into
through `rec`, the one-level-less-fuel `copyDirHelper`; a child file is
copied via `copyFileHelper`. -/
def copyEntries (rec : FSNode → List String → List String → List String → Option FSNode) :
    FSNode → List String → List String → List String → List String → Option FSNode
  | fs, [], _, _, _ => some fs
  | fs, name :: rest, dirP, toP, origTo =>
    match lookup fs (dirP ++ [name]) with
    | some (.dir _) =>
      if dirP ++ [name] = origTo then copyEntries rec fs rest dirP toP origTo
      else
        match rec (ensureDir fs toP name) (dirP ++ [name]) (toP ++ [name]) origTo with
        | none => none
        | some fs2 => copyEntries rec fs2 rest dirP toP origTo
    | some (.file c) => copyEntries rec (putFile fs toP name c) rest dirP toP origTo
    | none => copyEntries rec fs rest dirP toP origTo

/-- Model of `copyDirHelper(dir, to, originalTo)`, fuelled: enumerate the directory
the source handle currently points at and copy every entry.  The fuel only
bounds the recursion depth; the theorems below show a fuel larger than the
depth of the source subtree is never exhausted. -/
def copyDirHelper : Nat → FSNode → List String → List String → List String → Option FSNode
  | 0, _, _, _, _ => none
  | fuel + 1, fs, dirP, toP, origTo =>
    match lookup fs dirP with
    | some (.dir es) => copyEntries (copyDirHelper fuel) fs (es.map Prod.fst) dirP toP origTo
    | _ => some fs

/-- Model of `getDir(destination, true)`: it creates every missing directory along the
destination path. -/
def mkDirPathAux (fs : FSNode) (parent : List String) : List String → FSNode
  | [] => fs
  | name :: rest => mkDirPathAux (ensureDir fs parent name) (parent ++ [name]) rest

def mkDirPath (fs : FSNode) (p : List String) : FSNode :=
  mkDirPathAux fs [] p

/-- Model of `LocalFS.copyDir(path, destination)` on the tree model: resolve the
source, create the destination, do nothing when they are the same entry,
otherwise run `copyDirHelper(dir, to, to)`. -/
def copyDir (fuel : Nat) (fs : FSNode) (srcP dstP : List String) : Option FSNode :=
  let fs1 := mkDirPath fs dstP
  if srcP = dstP then some fs1
  else copyDirHelper fuel fs1 srcP dstP dstP

mutual
/-- Height of a tree node: directories are one taller than their tallest
entry. -/
def nodeDepth : FSNode → Nat
  | .file _ => 0
  | .dir es => entriesDepth es + 1

def entriesDepth : List (String × FSNode) → Nat
  | [] => 0
  | e :: rest => max (nodeDepth e.2) (entriesDepth rest)
end

/-- Height of the subtree a handle points at (0 for a dangling handle). -/
def depthAt (fs : FSNode) (q : List String) : Nat :=
  match lookup fs q with
  | some n => nodeDepth n
  | none => 0

/-- Predicate `isUnder base q`: the handle `q` points into the subtree rooted at
`base` (inclusively) — `base` is a prefix of `q`. -/
def isUnder (base q : List String) : Prop :=
  q.take base.length = base

/-- The kind of a node together with the entry-name list a directory
enumeration would yield. -/
def nodeView : FSNode → Option (List String)
  | .file _ => none
  | .dir es => some (es.map Prod.fst)

/-- What a single backend observation of the handle `q` can see: whether it
dangles, and otherwise the node's kind plus its entry names. -/
def viewAt (fs : FSNode) (q : List String) : Option (Option (List String)) :=
  (lookup fs q).map nodeView

/-- Two trees agree on every observation outside the subtree rooted at
`base`. -/
def agreeOut (base : List String) (fs fs2 : FSNode) : Prop :=
  ∀ q, ¬ isUnder base q → viewAt fs q = viewAt fs2 q

/-- An absolute normalized segment sequence: it starts with the root
sentinel and no later segment is empty, `.` or `..`. -/
def NormalizedAbs (p : List String) : Prop :=
  p.head? = some ROOT_NAME ∧ ∀ x ∈ p.tail, x ≠ "" ∧ x ≠ "." ∧ x ≠ ".."

/-- A concrete step function for witnesses: each walk step counts. -/
def stepW : Nat → String → Bool → Option Nat :=
  fun d _ _ => some (d + 1)

/-- A concrete file-handle step for witnesses: record the parent counter
and the requested leaf name. -/
def fileStepW : Nat → String → Bool → Option (Nat × String) :=
  fun d n _ => some (d, n)

/-- The tree of the `copyDir("/a", "/a/sub")` scenario: `/a` holds a file
`f` and a directory `d` containing a file `g`. -/
def scenarioFS : FSNode :=
  .dir [("a", .dir [("f", .file "hello"), ("d", .dir [("g", .file "x")])])]

/-- What the scenario copies into `/a/sub`: everything in `/a` except the
destination itself. -/
def scenarioCopied : FSNode :=
  .dir [("f", .file "hello"), ("d", .dir [("g", .file "x")])]

/-- The scenario's final tree: `/a/sub` received the copy and was not
itself copied into. -/
def scenarioResult : FSNode :=
  .dir [("a", .dir [("f", .file "hello"), ("d", .dir [("g", .file "x")]),
    ("sub", scenarioCopied)])]

/-! ## Lemmas: the `normalize` loop in absolute mode -/

lemma normLoop_abs (f : Bool) (l : List String) :
    ∀ (res : List String) (n : Nat), res.head? = some ROOT_NAME →
      (∀ x ∈ res.tail, x ≠ "" ∧ x ≠ "." ∧ x ≠ "..") →
      (normLoop f true l res n).head? = some ROOT_NAME ∧
        ∀ x ∈ (normLoop f true l res n).tail, x ≠ "" ∧ x ≠ "." ∧ x ≠ ".." := by
  induction l with
  | nil => intro res n h1 h2; exact ⟨h1, h2⟩
  | cons p rest ih =>
    intro res n h1 h2
    obtain ⟨t, rfl⟩ := List.head?_eq_some_iff.mp h1
    by_cases hp : p = "" ∨ p = "."
    · rw [show normLoop f true (p :: rest) (ROOT_NAME :: t) n
          = normLoop f true rest (ROOT_NAME :: t) n by rw [normLoop]; rw [if_pos hp]]
      exact ih _ n h1 h2
    · by_cases hpp : p = ".."
      · subst hpp
        rcases t with _ | ⟨a, t2⟩
        · rw [show normLoop f true (".." :: rest) [ROOT_NAME] n
              = normLoop f true rest [ROOT_NAME] n by simp [normLoop, ROOT_NAME]]
          exact ih _ n h1 h2
        · rw [show normLoop f true (".." :: rest) (ROOT_NAME :: a :: t2) n
              = normLoop f true rest (ROOT_NAME :: (a :: t2).dropLast) n by
            simp [normLoop, ROOT_NAME]]
          refine ih _ n rfl ?_
          intro x hx
          exact h2 x (List.dropLast_subset _ hx)
      · have hp1 : p ≠ "" := fun h => hp (Or.inl h)
        have hp2 : p ≠ "." := fun h => hp (Or.inr h)
        rw [show normLoop f true (p :: rest) (ROOT_NAME :: t) n
            = normLoop f true rest (ROOT_NAME :: (t ++ [p])) (n + 1) by
          rw [normLoop]; rw [if_neg hp]; rw [if_neg hpp]; rfl]
        refine ih _ (n + 1) rfl ?_
        intro x hx
        rcases List.mem_append.mp hx with hx | hx
        · exact h2 x hx
        · rw [List.mem_singleton.mp hx]; exact ⟨hp1, hp2, hpp⟩

/-- Processing a list of plain segments in absolute mode just appends
them. -/
lemma normLoop_app (f : Bool) (l : List String) :
    ∀ (res : List String) (n : Nat),
      (∀ x ∈ l, x ≠ "" ∧ x ≠ "." ∧ x ≠ "..") →
      normLoop f true l res n = res ++ l := by
  induction l with
  | nil => intro res n _; simp [normLoop]
  | cons p rest ih =>
    intro res n hl
    obtain ⟨h1, h2, h3⟩ := hl p (List.mem_cons_self p rest)
    rw [show normLoop f true (p :: rest) res n
        = normLoop f true rest (res ++ [p]) (n + 1) by
      rw [normLoop]
      rw [if_neg (by push_neg; exact ⟨h1, h2⟩)]
      rw [if_neg h3]]
    rw [ih _ (n + 1) fun x hx => hl x (List.mem_cons_of_mem _ hx)]
    simp

/-! ## Lemmas: `resolve` of an absolute current directory -/

/-- The two-argument instance of the resolve fold, as `resolvePath` uses
it: with an absolute current directory the folded sequence is absolute. -/
lemma resolveLoop_pair (cd q : List String) (h : cd.head? = some ROOT_NAME) :
    (resolveLoop [q, cd] []).head? = some ROOT_NAME := by
  obtain ⟨t, rfl⟩ := List.head?_eq_some_iff.mp h
  rcases q with _ | ⟨x, xs⟩
  · simp [resolveLoop, ROOT_NAME]
  · by_cases hx : x = ""
    · subst hx; simp [resolveLoop, ROOT_NAME]
    · simp [resolveLoop, ROOT_NAME, hx]

/-- Lemma: `resolvePath` from an absolute current directory produces an absolute
normalized sequence, and the empty-result fallback of `resolve` is not
taken. -/
lemma resolvePath_normalizedAbs (cd : List String) (p : PathArg)
    (h : cd.head? = some ROOT_NAME) :
    NormalizedAbs (resolvePath cd p) ∧
      normalize (resolveLoop [cd, p.toSegs].reverse []) true ≠ [] := by
  have habs := resolveLoop_pair cd p.toSegs h
  obtain ⟨t, ht⟩ := List.head?_eq_some_iff.mp habs
  have hrev : [cd, p.toSegs].reverse = [p.toSegs, cd] := rfl
  have hnorm : normalize (resolveLoop [p.toSegs, cd] []) true
      = normLoop true true t [ROOT_NAME] 0 := by
    rw [ht]; simp [normalize, ROOT_NAME]
  have hinv := normLoop_abs true t [ROOT_NAME] 0 rfl (by simp)
  obtain ⟨u, hu⟩ := List.head?_eq_some_iff.mp hinv.1
  have hne : normalize (resolveLoop [cd, p.toSegs].reverse []) true ≠ [] := by
    rw [hrev, hnorm, hu]; simp
  refine ⟨?_, hne⟩
  have hres : resolvePath cd p = normLoop true true t [ROOT_NAME] 0 := by
    show resolve [cd, p.toSegs] = _
    rw [resolve, hrev]
    simp only [hnorm]
    rw [if_neg (by rw [hu]; simp)]
  rw [hres]
  exact ⟨hinv.1, hinv.2⟩

/-! ## Claims about the path algebra -/

/-- Claim C2: normalizing any sequence whose first element is the root
sentinel, with either upstream flag, returns a sequence that still begins
with the root sentinel, has length at least 1 (a `..` arriving when only
the sentinel remains is dropped, never popping below it), and contains no
`.` or `..` segment. -/
theorem normalize_absolute_invariant (rest : List String) (allowUpstream : Bool) :
    (normalize (ROOT_NAME :: rest) allowUpstream).head? = some ROOT_NAME ∧
      1 ≤ (normalize (ROOT_NAME :: rest) allowUpstream).length ∧
      ∀ x ∈ normalize (ROOT_NAME :: rest) allowUpstream, x ≠ "." ∧ x ≠ ".." := by
  have hn : normalize (ROOT_NAME :: rest) allowUpstream
      = normLoop allowUpstream true rest [ROOT_NAME] 0 := by simp [normalize, ROOT_NAME]
  have hinv := normLoop_abs allowUpstream rest [ROOT_NAME] 0 rfl (by simp)
  obtain ⟨t, ht⟩ := List.head?_eq_some_iff.mp hinv.1
  rw [hn, ht]
  refine ⟨rfl, by simp, ?_⟩
  intro x hx
  rcases List.mem_cons.mp hx with rfl | hx
  · exact ⟨by simp [ROOT_NAME], by simp [ROOT_NAME]⟩
  · have hgood := hinv.2 x (by rw [ht]; exact hx)
    exact ⟨hgood.2.1, hgood.2.2⟩

/-- Claim C3: `normalize` is the identity on already-normalized absolute
sequences (first element the root sentinel, afterwards no empty, `.` or
`..` segment), for either value of the upstream flag. -/
theorem normalize_idempotent (p : List String) (allowUpstream : Bool)
    (h0 : p.head? = some ROOT_NAME)
    (h1 : ∀ x ∈ p.tail, x ≠ "" ∧ x ≠ "." ∧ x ≠ "..") :
    normalize p allowUpstream = p := by
  obtain ⟨t, rfl⟩ := List.head?_eq_some_iff.mp h0
  have hn : normalize (ROOT_NAME :: t) allowUpstream
      = normLoop allowUpstream true t [ROOT_NAME] 0 := by simp [normalize, ROOT_NAME]
  rw [hn, normLoop_app allowUpstream t [ROOT_NAME] 0 (by simpa using h1)]
  rfl

/-- Witness for C3 at a concrete normalized absolute sequence. -/
theorem normalize_idempotent_witness :
    normalize ["", "a", "b"] true = ["", "a", "b"] :=
  normalize_idempotent ["", "a", "b"] true rfl (by decide)

/-- Claim C4 is false on the code: splitting the empty string yields the
split's single empty piece, which the trailing-empty-segment pop of
`toArray` then removes. -/
theorem toArray_empty_counterexample : toArray "" ≠ [""] := by decide

/-- Claim C4 (amended): splitting the empty string yields the empty
sequence, `toArray("") == []`. -/
theorem toArray_empty : toArray "" = [] := by decide

/-- Claim C5: with upstream traversal disallowed, a `..` processed on a
relative pass while the accumulated result is empty makes the whole
normalization return the empty sequence as its failure signal, whatever
segments follow; in particular on `"./folder/../../../../file"`. -/
theorem normalize_escape_disallowed :
    (∀ (rest : List String) (n : Nat), normLoop false false (".." :: rest) [] n = []) ∧
      normalize (toArray "./folder/../../../../file") false = [] := by
  refine ⟨fun rest n => ?_, by decide⟩
  simp [normLoop]

/-- Claim C6: with upstream traversal allowed on a relative pass, a `..`
pops the last real segment pushed during this pass when one remains
(`segCount > 0`) and otherwise appends a literal `..`, so upstream escapes
accumulate at the front of the result; in particular
`normalize(toArray("./folder/../../../../file"), true) ==
toArray("../../../file")`. -/
theorem normalize_upstream_allowed :
    (∀ (rest reals : List String) (j : Nat),
        normLoop true false (".." :: rest) (List.replicate j ".." ++ reals) reals.length =
          if reals = [] then normLoop true false rest (List.replicate (j + 1) "..") 0
          else normLoop true false rest
            (List.replicate j ".." ++ reals.dropLast) (reals.length - 1)) ∧
      normalize (toArray "./folder/../../../../file") true = toArray "../../../file" := by
  refine ⟨fun rest reals j => ?_, by decide⟩
  rcases reals with _ | ⟨a, rs⟩
  · simp [normLoop, List.replicate_succ' j ".."]
  · simp [normLoop, List.dropLast_append_cons]

/-! ## Lemmas: the navigator walk -/

/-- The element-wise loop of `isChildOrEqual` is the `take`-prefix test. -/
lemma prefixEq_iff (cd : List String) : ∀ q : List String,
    prefixEq cd q = true ↔ q.take cd.length = cd := by
  induction cd with
  | nil => intro q; simp [prefixEq]
  | cons c cs ih =>
    intro q
    rcases q with _ | ⟨x, xs⟩
    · simp [prefixEq]
    · simp only [prefixEq, Bool.and_eq_true, beq_iff_eq, List.length_cons,
        List.take_succ_cons, List.cons.injEq, ih xs]
      tauto

/-- Lemma: `isChildOrEqual(cd, path)` holds exactly when `cd` is an element-wise
prefix of `path` (with `cd` shorter or equal). -/
lemma isChildOrEqual_iff (cd q : List String) :
    isChildOrEqual cd q = true ↔ q.take cd.length = cd := by
  rw [isChildOrEqual]
  by_cases hlen : q.length < cd.length
  · rw [if_pos hlen]
    simp only [Bool.false_eq_true, false_iff]
    intro hc
    have hl := congrArg List.length hc
    simp only [List.length_take] at hl
    omega
  · rw [if_neg hlen]; exact prefixEq_iff cd q

/-- The walk body over `rem` iterations from index `i` is the monadic fold
of the step function over the segments at indices `i, …, i + rem - 1`. -/
lemma walkAux_foldlM {H : Type} (step : H → String → Option H) (abs : List String) :
    ∀ (rem i : Nat) (d : H), i + rem ≤ abs.length →
      walkAux step abs rem i d = List.foldlM step d ((abs.take (i + rem)).drop i) := by
  intro rem
  induction rem with
  | zero =>
    intro i d h
    rw [List.drop_of_length_le (by simp only [List.length_take]; omega)]
    rfl
  | succ rem ih =>
    intro i d h
    have hiabs : i < abs.length := by omega
    have hitake : i < (abs.take (i + (rem + 1))).length := by
      simp only [List.length_take]; omega
    have hgetD : abs.getD i "" = abs[i] := by
      simp [List.getD_eq_getElem?_getD, List.getElem?_eq_getElem hiabs]
    have hdrop : (abs.take (i + (rem + 1))).drop i
        = abs[i] :: (abs.take (i + (rem + 1))).drop (i + 1) := by
      rw [List.drop_eq_getElem_cons hitake]
      congr 1
      exact List.getElem_take abs
    rw [walkAux, hgetD, hdrop, List.foldlM_cons]
    cases hstep : step d abs[i] with
    | none => rfl
    | some d2 =>
      show walkAux step abs rem (i + 1) d2
          = List.foldlM step d2 ((abs.take (i + (rem + 1))).drop (i + 1))
      rw [show i + (rem + 1) = (i + 1) + rem by omega]
      exact ih (i + 1) d2 (by omega)

/-- The walk loop from index `i` to `stop` is the monadic fold of the step
function over the segments at indices `i, …, stop - 1`. -/
lemma walkLoopM_foldlM {H : Type} (step : H → String → Option H) (abs : List String)
    (stop : Nat) (hstop : stop ≤ abs.length) :
    ∀ (i : Nat) (d : H),
      walkLoopM step abs stop i d = List.foldlM step d ((abs.take stop).drop i) := by
  intro i d
  by_cases hi : i ≤ stop
  · rw [walkLoopM, walkAux_foldlM step abs (stop - i) i d (by omega),
      show i + (stop - i) = stop by omega]
  · rw [walkLoopM, show stop - i = 0 by omega]
    rw [List.drop_of_length_le (by simp only [List.length_take]; omega)]
    rfl

/-! ## Claims about the navigator walks -/

/-- Claim C1: `getDir` resolves its argument against the current-directory
sequence into an absolute target sequence; when the current sequence is an
element-wise prefix of the target (current shorter or equal), the walk
starts from the cached current handle and folds exactly the suffix
segments (indices `current.path.length … target.length - 1`); otherwise it
starts from the root handle and folds every segment from index 1. -/
theorem getDir_walk {H : Type} (step : H → String → Bool → Option H) (root current : H)
    (cd : List String) (path : PathArg) (create : Bool)
    (hcd : cd.head? = some ROOT_NAME) :
    (resolvePath cd path).head? = some ROOT_NAME ∧
      ((resolvePath cd path).take cd.length = cd →
        getDir step root current cd path create =
          List.foldlM (fun d n => step d n create) current
            ((resolvePath cd path).drop cd.length)) ∧
      (¬ (resolvePath cd path).take cd.length = cd →
        getDir step root current cd path create =
          List.foldlM (fun d n => step d n create) root
            ((resolvePath cd path).drop 1)) := by
  obtain ⟨hnorm, _⟩ := resolvePath_normalizedAbs cd path hcd
  have hunfold : getDir step root current cd path create
      = walkLoopM (fun d n => step d n create) (resolvePath cd path)
          (resolvePath cd path).length
          (if isChildOrEqual cd (resolvePath cd path) then cd.length else 1)
          (if isChildOrEqual cd (resolvePath cd path) then current else root) := rfl
  have hfold := walkLoopM_foldlM (fun d n => step d n create) (resolvePath cd path)
    (resolvePath cd path).length (Nat.le_refl _)
  refine ⟨hnorm.1, ?_, ?_⟩
  · intro hpre
    have hchild := (isChildOrEqual_iff cd (resolvePath cd path)).mpr hpre
    rw [hunfold, hchild, if_pos rfl, if_pos rfl,
      hfold cd.length current,
      List.take_length]
  · intro hpre
    have hchild : isChildOrEqual cd (resolvePath cd path) = false := by
      rcases Bool.eq_false_or_eq_true (isChildOrEqual cd (resolvePath cd path)) with hb | hb
      · exact absurd ((isChildOrEqual_iff cd (resolvePath cd path)).mp hb) hpre
      · exact hb
    rw [hunfold, hchild, if_neg (by simp), if_neg (by simp),
      hfold 1 root,
      List.take_length]

/-- Witness for C1: a target below the current directory walks only the
suffix from the cached handle, a sibling target restarts at the root. -/
theorem getDir_walk_witness :
    getDir stepW 100 200 ["", "a"] (PathArg.str "b") false = some 201 ∧
      getDir stepW 100 200 ["", "a"] (PathArg.str "/x") false = some 101 := by
  constructor
  · rw [(getDir_walk stepW 100 200 ["", "a"] (PathArg.str "b") false rfl).2.1 (by decide)]
    decide
  · rw [(getDir_walk stepW 100 200 ["", "a"] (PathArg.str "/x") false rfl).2.2 (by decide)]
    decide

/-- Claim C7: `getFile` applies the same prefix/cached-walk logic as
`getDir` but stops one segment short of the resolved absolute target,
obtaining the target's parent directory, then requests the final segment
from that parent as a file handle with the same create flag. -/
theorem getFile_walk {H F : Type} (step : H → String → Bool → Option H)
    (fileStep : H → String → Bool → Option F) (root current : H)
    (cd : List String) (path : PathArg) (create : Bool) :
    ((resolvePath cd path).take cd.length = cd →
      getFile step fileStep root current cd path create =
        (List.foldlM (fun d n => step d n create) current
            ((resolvePath cd path).dropLast.drop cd.length)).bind
          (fun dir => fileStep dir ((resolvePath cd path).getLastD "") create)) ∧
    (¬ (resolvePath cd path).take cd.length = cd →
      getFile step fileStep root current cd path create =
        (List.foldlM (fun d n => step d n create) root
            ((resolvePath cd path).dropLast.drop 1)).bind
          (fun dir => fileStep dir ((resolvePath cd path).getLastD "") create)) := by
  have hunfold : getFile step fileStep root current cd path create
      = (walkLoopM (fun d n => step d n create) (resolvePath cd path)
          ((resolvePath cd path).length - 1)
          (if isChildOrEqual cd (resolvePath cd path) then cd.length else 1)
          (if isChildOrEqual cd (resolvePath cd path) then current else root)).bind
          (fun dir => fileStep dir ((resolvePath cd path).getLastD "") create) := by
    rw [getFile]
    cases walkLoopM (fun d n => step d n create) (resolvePath cd path)
        ((resolvePath cd path).length - 1)
        (if isChildOrEqual cd (resolvePath cd path) then cd.length else 1)
        (if isChildOrEqual cd (resolvePath cd path) then current else root) <;> rfl
  have hfold := walkLoopM_foldlM (fun d n => step d n create) (resolvePath cd path)
    ((resolvePath cd path).length - 1) (by omega)
  have htake : ((resolvePath cd path).take ((resolvePath cd path).length - 1))
      = (resolvePath cd path).dropLast := (List.dropLast_eq_take _).symm
  constructor
  · intro hpre
    have hchild := (isChildOrEqual_iff cd (resolvePath cd path)).mpr hpre
    rw [hunfold, hchild, if_pos rfl, if_pos rfl,
      hfold cd.length current, htake]
  · intro hpre
    have hchild : isChildOrEqual cd (resolvePath cd path) = false := by
      rcases Bool.eq_false_or_eq_true (isChildOrEqual cd (resolvePath cd path)) with hb | hb
      · exact absurd ((isChildOrEqual_iff cd (resolvePath cd path)).mp hb) hpre
      · exact hb
    rw [hunfold, hchild, if_neg (by simp), if_neg (by simp),
      hfold 1 root, htake]

/-- Witness for C7: the walk stops at the parent and requests the leaf
name from it, both when reusing the cached handle and when restarting. -/
theorem getFile_walk_witness :
    getFile stepW fileStepW 100 200 ["", "a"] (PathArg.str "b/c") false = some (201, "c") ∧
      getFile stepW fileStepW 100 200 ["", "a"] (PathArg.str "/x/y") false = some (101, "y") := by
  constructor
  · rw [(getFile_walk stepW fileStepW 100 200 ["", "a"] (PathArg.str "b/c") false).1
      (by decide)]
    decide
  · rw [(getFile_walk stepW fileStepW 100 200 ["", "a"] (PathArg.str "/x/y") false).2
      (by decide)]
    decide

/-- Claim C8: `cd` is atomic with respect to the current-directory state —
when the walk fails the caller observes the unchanged state and no return
value; on success both halves are replaced together, the handle being the
walked directory handle and the path being the resolution of the argument
against the previous current path. -/
theorem cd_atomic {H : Type} (step : H → String → Bool → Option H)
    (s : NavState H) (path : PathArg) :
    (getDirNav step s path false = none → cdNav step s path = (s, none)) ∧
      (∀ h, getDirNav step s path false = some h →
        cdNav step s path =
          ({ rootHandle := s.rootHandle, currentHandle := h,
             currentPath := resolvePath s.currentPath path }, some h)) := by
  constructor
  · intro hfail; simp [cdNav, hfail]
  · intro h hok; simp [cdNav, hok]

/-- Witness for C8: a successful `cd` updates handle and path together. -/
theorem cd_atomic_witness :
    cdNav stepW (mkNav 0) (PathArg.str "x") =
      ({ rootHandle := 0, currentHandle := 1, currentPath := ["", "x"] }, some 1) := by
  rw [(cd_atomic stepW (mkNav 0) (PathArg.str "x")).2 1 (by decide)]
  rfl

/-- Claim C10: the `LocalFS` class invariant — the constructor establishes
an absolute normalized current path; `resolvePath` against any
invariant-satisfying current path is again absolute and normalized, so
`cd`, the only operation assigning `current.path`, preserves the invariant
through either outcome; and under the invariant the `['.']` empty-result
fallback inside `resolve` is unreachable from navigator operations. -/
theorem navigator_path_invariant (cd : List String) (path : PathArg)
    (h : NormalizedAbs cd) :
    (∀ (H : Type) (r : H), NormalizedAbs (mkNav r).currentPath) ∧
      NormalizedAbs (resolvePath cd path) ∧
      normalize (resolveLoop [cd, path.toSegs].reverse []) true ≠ [] ∧
      resolvePath cd path ≠ ["."] ∧
      (∀ (H : Type) (step : H → String → Bool → Option H) (s : NavState H)
        (s2 : NavState H) (r : Option H), s.currentPath = cd →
          cdNav step s path = (s2, r) → NormalizedAbs s2.currentPath) := by
  obtain ⟨hres, hfb⟩ := resolvePath_normalizedAbs cd path h.1
  refine ⟨?_, hres, hfb, ?_, ?_⟩
  · intro H r
    exact ⟨rfl, by simp [mkNav]⟩
  · intro hdot
    have := hres.1
    rw [hdot] at this
    simp [ROOT_NAME] at this
  · intro H step s s2 r hs hcd2
    cases hwalk : getDirNav step s path false with
    | none =>
      have := (cd_atomic step s path).1 hwalk
      rw [this] at hcd2
      cases hcd2
      rw [hs]; exact h
    | some hh =>
      have := (cd_atomic step s path).2 hh hwalk
      rw [this] at hcd2
      cases hcd2
      show NormalizedAbs (resolvePath s.currentPath path)
      rw [hs]; exact hres

/-- Witness for C10 at a concrete normalized current path and a relative
argument that climbs one level. -/
theorem navigator_path_invariant_witness :
    NormalizedAbs (resolvePath ["", "a"] (PathArg.str "../b")) :=
  (navigator_path_invariant ["", "a"] (PathArg.str "../b") ⟨rfl, by decide⟩).2.1

/-! ## Lemmas: the copy recursion and the tree model -/

theorem lookup_append : ∀ (p : List String) (fs : FSNode) (q : List String),
    lookup fs (p ++ q) = (lookup fs p).bind (fun n => lookup n q)
  | [], fs, _ => by cases fs <;> rfl
  | _ :: _, .file _, _ => rfl
  | a :: p2, .dir es, q => by
    cases h : findEntry es a with
    | none => simp [lookup, h]
    | some c => simp [lookup, h, lookup_append p2 c q]

/-- Lemma: `modifyAt` rewrites exactly the entry named `a`; all other entries and
every entry's name are untouched. -/
theorem findEntry_map_modify (a : String) (g : FSNode → FSNode) :
    ∀ (es : List (String × FSNode)) (b : String),
      findEntry (es.map fun e => if e.1 = a then (e.1, g e.2) else e) b
        = if b = a then (findEntry es b).map g else findEntry es b := by
  intro es
  induction es with
  | nil => intro b; by_cases hba : b = a <;> simp [findEntry, hba]
  | cons e rest ih =>
    intro b
    obtain ⟨n, v⟩ := e
    rw [List.map_cons]
    by_cases hna : n = a
    · rw [show (if ((n, v) : String × FSNode).1 = a
          then (((n, v) : String × FSNode).1, g ((n, v) : String × FSNode).2)
          else ((n, v) : String × FSNode)) = (n, g v) from by rw [if_pos hna]]
      by_cases hnb : n = b
      · subst hnb
        simp only [findEntry, if_pos rfl, hna, if_pos rfl]
        rfl
      · simp only [findEntry, if_neg hnb, ih b]
    · rw [show (if ((n, v) : String × FSNode).1 = a
          then (((n, v) : String × FSNode).1, g ((n, v) : String × FSNode).2)
          else ((n, v) : String × FSNode)) = (n, v) from by rw [if_neg hna]]
      by_cases hnb : n = b
      · subst hnb
        simp [findEntry, if_neg hna]
      · simp only [findEntry, if_neg hnb, ih b]

theorem map_modify_names (a : String) (g : FSNode → FSNode) :
    ∀ es : List (String × FSNode),
      (es.map fun e => if e.1 = a then (e.1, g e.2) else e).map Prod.fst
        = es.map Prod.fst := by
  intro es
  induction es with
  | nil => rfl
  | cons e rest ih => by_cases h : e.1 = a <;> simp [h, ih]

theorem isUnder_refl (p : List String) : isUnder p p := by
  simp [isUnder]

theorem isUnder_length {base q : List String} (h : isUnder base q) :
    base.length ≤ q.length := by
  have hl := congrArg List.length h
  simp only [List.length_take] at hl
  omega

theorem isUnder_trans {a b c : List String} (h1 : isUnder a b) (h2 : isUnder b c) :
    isUnder a c := by
  have hl := isUnder_length h1
  have hstep : c.take a.length = (c.take b.length).take a.length := by
    rw [List.take_take]
    congr 1
    omega
  rw [isUnder, hstep, h2, h1]

theorem isUnder_extend {base t : List String} (n : String) (h : isUnder base t) :
    isUnder base (t ++ [n]) := by
  rw [isUnder, List.take_append_of_le_length (isUnder_length h)]
  exact h

/-- A child of a directory outside the destination subtree is itself
outside unless it is the destination. -/
theorem isUnder_snoc {base dirP : List String} (name : String)
    (hdir : ¬ isUnder base dirP) (hne : dirP ++ [name] ≠ base) :
    ¬ isUnder base (dirP ++ [name]) := by
  intro hu
  by_cases hl : base.length ≤ dirP.length
  · apply hdir
    rw [isUnder] at hu ⊢
    rwa [List.take_append_of_le_length hl] at hu
  · have hlen := isUnder_length hu
    simp only [List.length_append, List.length_singleton] at hlen
    apply hne
    rw [isUnder] at hu
    rw [← hu, List.take_of_length_le (by simp; omega)]

/-- Mutating strictly inside a path `p` does not change any observation at
a handle not under `p`: entries along the way keep their names and kinds,
diverging branches are untouched, and a path through a file or a missing
entry stops identically. -/
theorem viewAt_modifyAt (g : FSNode → FSNode) :
    ∀ (p : List String) (fs : FSNode) (q : List String), ¬ isUnder p q →
      viewAt (modifyAt g p fs) q = viewAt fs q
  | [], _, q, h => absurd (by simp [isUnder]) h
  | _ :: _, .file _, _, _ => rfl
  | a :: p2, .dir es, q, h => by
    rcases q with _ | ⟨b, q2⟩
    · simp [viewAt, lookup, nodeView, map_modify_names a (modifyAt g p2) es]
    · by_cases hba : b = a
      · subst hba
        have h2 : ¬ isUnder p2 q2 := by
          intro hu
          apply h
          rw [isUnder] at hu ⊢
          simp [List.take_succ_cons, hu]
        cases hfe : findEntry es b with
        | none =>
          simp [viewAt, lookup, findEntry_map_modify b (modifyAt g p2) es b, hfe]
        | some c =>
          have hrec := viewAt_modifyAt g p2 c q2 h2
          simp only [viewAt] at hrec
          simp [viewAt, lookup, findEntry_map_modify b (modifyAt g p2) es b, hfe, hrec]
      · cases hfe : findEntry es b with
        | none =>
          simp [viewAt, lookup, findEntry_map_modify a (modifyAt g p2) es b, hba, hfe]
        | some c =>
          simp [viewAt, lookup, findEntry_map_modify a (modifyAt g p2) es b, hba, hfe]

/-- Creating a child directory under the destination preserves agreement
outside the destination. -/
theorem agreeOut_ensureDir {origTo toP : List String} {fs fs0 : FSNode}
    (hag : agreeOut origTo fs fs0) (hto : isUnder origTo toP) (name : String) :
    agreeOut origTo (ensureDir fs toP name) fs0 := by
  intro q hq
  rw [ensureDir, viewAt_modifyAt _ toP fs q (fun hu => hq (isUnder_trans hto hu))]
  exact hag q hq

/-- Writing a file under the destination preserves agreement outside the
destination. -/
theorem agreeOut_putFile {origTo toP : List String} {fs fs0 : FSNode}
    (hag : agreeOut origTo fs fs0) (hto : isUnder origTo toP) (name c : String) :
    agreeOut origTo (putFile fs toP name c) fs0 := by
  intro q hq
  rw [putFile, viewAt_modifyAt _ toP fs q (fun hu => hq (isUnder_trans hto hu))]
  exact hag q hq

theorem findEntry_depth : ∀ (es : List (String × FSNode)) (name : String) (c : FSNode),
    findEntry es name = some c → nodeDepth c ≤ entriesDepth es := by
  intro es
  induction es with
  | nil => intro name c h; simp [findEntry] at h
  | cons e rest ih =>
    intro name c h
    rw [findEntry] at h
    by_cases hn : e.1 = name
    · rw [if_pos hn] at h
      cases h
      simp [entriesDepth]
    · rw [if_neg hn] at h
      have := ih name c h
      simp only [entriesDepth]
      omega

/-- Every child of a directory node sits at strictly smaller height. -/
theorem depthAt_child {fs0 : FSNode} {dirP : List String}
    {es0 : List (String × FSNode)} (hdir : lookup fs0 dirP = some (.dir es0))
    (name : String) :
    depthAt fs0 (dirP ++ [name]) < nodeDepth (.dir es0) := by
  rw [depthAt, lookup_append dirP fs0 [name], hdir]
  cases hfe : findEntry es0 name with
  | none => simp [lookup, hfe, nodeDepth]
  | some c =>
    have := findEntry_depth es0 name c hfe
    simp only [Option.some_bind, lookup, hfe, nodeDepth]
    omega

/-- Outside the destination, both trees show a directory with the same
entry names. -/
theorem agree_dir_lookup {origTo dirP : List String} {fs fs0 : FSNode}
    {es : List (String × FSNode)} (hag : agreeOut origTo fs fs0)
    (hdir : ¬ isUnder origTo dirP) (hl : lookup fs dirP = some (.dir es)) :
    ∃ es0, lookup fs0 dirP = some (.dir es0) ∧ es0.map Prod.fst = es.map Prod.fst := by
  have hv := hag dirP hdir
  rw [viewAt, viewAt, hl] at hv
  cases hl0 : lookup fs0 dirP with
  | none => rw [hl0] at hv; simp [nodeView] at hv
  | some n0 =>
    rw [hl0] at hv
    cases n0 with
    | file c => simp [nodeView] at hv
    | dir es0 => exact ⟨es0, rfl, by simpa [nodeView] using hv.symm⟩

/-- The entry loop preserves the invariant and never exhausts the fuel,
given that one fewer level of fuel suffices for every child (the induction
hypothesis `ih`). -/
theorem copyEntries_total {origTo : List String} {fs0 : FSNode} (g : Nat)
    (ih : ∀ (fs : FSNode) (dirP toP : List String),
      agreeOut origTo fs fs0 → ¬ isUnder origTo dirP → isUnder origTo toP →
      depthAt fs0 dirP < g →
      ∃ fs2, copyDirHelper g fs dirP toP origTo = some fs2 ∧ agreeOut origTo fs2 fs0) :
    ∀ (names : List String) (fs : FSNode) (dirP toP : List String),
      agreeOut origTo fs fs0 → ¬ isUnder origTo dirP → isUnder origTo toP →
      (∀ name ∈ names, depthAt fs0 (dirP ++ [name]) < g) →
      ∃ fs2, copyEntries (copyDirHelper g) fs names dirP toP origTo = some fs2 ∧
        agreeOut origTo fs2 fs0 := by
  intro names
  induction names with
  | nil => intro fs dirP toP hag _ _ _; exact ⟨fs, rfl, hag⟩
  | cons name rest ihn =>
    intro fs dirP toP hag hdir hto hdepth
    have hrest : ∀ x ∈ rest, depthAt fs0 (dirP ++ [x]) < g :=
      fun x hx => hdepth x (List.mem_cons_of_mem _ hx)
    cases hl : lookup fs (dirP ++ [name]) with
    | none =>
      simp only [copyEntries, hl]
      exact ihn fs dirP toP hag hdir hto hrest
    | some node =>
      cases node with
      | file c =>
        simp only [copyEntries, hl]
        exact ihn (putFile fs toP name c) dirP toP
          (agreeOut_putFile hag hto name c) hdir hto hrest
      | dir es =>
        by_cases heq : dirP ++ [name] = origTo
        · simp only [copyEntries, hl, if_pos heq]
          exact ihn fs dirP toP hag hdir hto hrest
        · obtain ⟨fs2, hrun, hag2⟩ := ih (ensureDir fs toP name)
            (dirP ++ [name]) (toP ++ [name]) (agreeOut_ensureDir hag hto name)
            (isUnder_snoc name hdir heq) (isUnder_extend name hto)
            (hdepth name (List.mem_cons_self name rest))
          simp only [copyEntries, hl, if_neg heq, hrun]
          exact ihn fs2 dirP toP hag2 hdir hto hrest

/-- Main lemma: when the source handle is not inside the original
destination subtree and the destination handle is, `copyDirHelper`
succeeds with any fuel exceeding the height of the source subtree in the
reference tree, and mutates nothing outside the destination. -/
theorem copyDirHelper_total {origTo : List String} {fs0 : FSNode} :
    ∀ (fuel : Nat) (fs : FSNode) (dirP toP : List String),
      agreeOut origTo fs fs0 → ¬ isUnder origTo dirP → isUnder origTo toP →
      depthAt fs0 dirP < fuel →
      ∃ fs2, copyDirHelper fuel fs dirP toP origTo = some fs2 ∧
        agreeOut origTo fs2 fs0 := by
  intro fuel
  induction fuel with
  | zero => intro fs dirP toP _ _ _ h; omega
  | succ g ihg =>
    intro fs dirP toP hag hdir hto hdepth
    cases hl : lookup fs dirP with
    | none => exact ⟨fs, by simp [copyDirHelper, hl], hag⟩
    | some node =>
      cases node with
      | file c => exact ⟨fs, by simp [copyDirHelper, hl], hag⟩
      | dir es =>
        obtain ⟨es0, hl0, _⟩ := agree_dir_lookup hag hdir hl
        have hdfs0 : depthAt fs0 dirP = nodeDepth (.dir es0) := by
          rw [depthAt, hl0]
        have hchild : ∀ name ∈ es.map Prod.fst, depthAt fs0 (dirP ++ [name]) < g := by
          intro name _
          have hc := depthAt_child hl0 name
          omega
        obtain ⟨fs2, hrun, hag2⟩ := copyEntries_total g ihg (es.map Prod.fst)
          fs dirP toP hag hdir hto hchild
        refine ⟨fs2, ?_, hag2⟩
        simp only [copyDirHelper, hl]
        exact hrun

/-- Claim C9: `copyDir` terminates even when the destination lies inside
the source tree — every recursive step carries the original destination
and skips any child identity-equal to it, so the original destination is
never recursed into, nothing outside it is mutated, and fuel exceeding the
finite source tree's height is never exhausted; in particular copying
`/a` into `/a/sub` terminates without copying the destination into
itself. -/
theorem copyDir_terminating :
    (∀ (fuel : Nat) (fs fs0 : FSNode) (dirP toP origTo : List String),
        agreeOut origTo fs fs0 → ¬ isUnder origTo dirP → isUnder origTo toP →
        depthAt fs0 dirP < fuel →
        ∃ fs2, copyDirHelper fuel fs dirP toP origTo = some fs2 ∧
          agreeOut origTo fs2 fs0) ∧
      (∀ (fuel : Nat) (fs : FSNode) (srcP dstP : List String),
        ¬ isUnder dstP srcP → depthAt (mkDirPath fs dstP) srcP < fuel →
        ∃ fs2, copyDir fuel fs srcP dstP = some fs2) ∧
      copyDir 3 scenarioFS ["a"] ["a", "sub"] = some scenarioResult ∧
      (copyDir 3 scenarioFS ["a"] ["a", "sub"]).bind
        (fun t => lookup t ["a", "sub", "sub"]) = none := by
  refine ⟨?_, ?_, rfl, rfl⟩
  · intro fuel fs fs0 dirP toP origTo hag hdir hto hdepth
    exact copyDirHelper_total fuel fs dirP toP hag hdir hto hdepth
  · intro fuel fs srcP dstP hsrc hdepth
    by_cases heq : srcP = dstP
    · exact absurd (heq ▸ isUnder_refl dstP) hsrc
    · obtain ⟨fs2, hrun, _⟩ := copyDirHelper_total fuel (mkDirPath fs dstP)
        srcP dstP (fun q _ => rfl) hsrc (isUnder_refl dstP) hdepth
      exact ⟨fs2, by simp [copyDir, heq, hrun]⟩

/-- Witness for C9: the `/a` into `/a/sub` scenario instantiates both
universally quantified parts. -/
theorem copyDir_terminating_witness :
    (∃ fs2, copyDirHelper 3 (mkDirPath scenarioFS ["a", "sub"]) ["a"]
        ["a", "sub"] ["a", "sub"] = some fs2 ∧
        agreeOut ["a", "sub"] fs2 (mkDirPath scenarioFS ["a", "sub"])) ∧
      ∃ fs2, copyDir 3 scenarioFS ["a"] ["a", "sub"] = some fs2 :=
  ⟨copyDir_terminating.1 3 (mkDirPath scenarioFS ["a", "sub"])
      (mkDirPath scenarioFS ["a", "sub"]) ["a"] ["a", "sub"] ["a", "sub"]
      (fun q _ => rfl) (by simp [isUnder]) (isUnder_refl _) (by decide),
    copyDir_terminating.2.1 3 scenarioFS ["a"] ["a", "sub"]
      (by simp [isUnder]) (by decide)⟩

end LocalFS
